import Mathlib

/-!
Shallow embedding of the region split-and-scatter orchestrator of a
backup/restore tool for a sharded key-value store (the `RegionSplitter`,
topology scanner, split-key planner and scatter coordinator), together
with theorems settling the specification claims about it.

Keys are byte strings, modelled as `List Nat`; `bytes.Compare` becomes
`bytesCmp` (lexicographic order with the shorter prefix smaller).
Fallible operations return explicit outcome types; loops whose
termination depends on external responses take a fuel argument, with a
distinguished `diverge` outcome when the fuel runs out, and a `panic`
outcome mirroring a Go runtime panic (out-of-range index, nil map hit).
The network client is abstracted as pure response functions, matching
the code where the client is an abstract capability.
-/

namespace BR

/-- A byte-string key. -/
abbrev Key := List Nat

/-- Lexicographic comparison of byte strings, mirroring Go `bytes.Compare`:
a strict prefix is smaller; result is `lt`, `eq` or `gt`. -/
def bytesCmp : Key → Key → Ordering
| [], [] => Ordering.eq
| [], _ :: _ => Ordering.lt
| _ :: _, [] => Ordering.gt
| a :: as, b :: bs =>
  if a < b then Ordering.lt
  else if b < a then Ordering.gt
  else bytesCmp as bs

theorem bytesCmp_eq_iff : ∀ (a b : Key), bytesCmp a b = Ordering.eq ↔ a = b
| [], [] => by simp [bytesCmp]
| [], _ :: _ => by simp [bytesCmp]
| _ :: _, [] => by simp [bytesCmp]
| x :: xs, y :: ys => by
  simp only [bytesCmp]
  by_cases h1 : x < y
  · simp only [if_pos h1]
    constructor
    · intro h; cases h
    · intro h
      injection h with hx _
      omega
  · by_cases h2 : y < x
    · simp only [if_neg h1, if_pos h2]
      constructor
      · intro h; cases h
      · intro h
        injection h with hx _
        omega
    · have hxy : x = y := by omega
      subst hxy
      simp only [if_neg h1, if_neg h2, bytesCmp_eq_iff xs ys, List.cons.injEq, true_and]

theorem bytesCmp_refl (a : Key) : bytesCmp a a = Ordering.eq :=
  (bytesCmp_eq_iff a a).mpr rfl

theorem bytesCmp_swap : ∀ (a b : Key), bytesCmp a b = Ordering.gt ↔ bytesCmp b a = Ordering.lt
| [], [] => by simp [bytesCmp]
| [], _ :: _ => by simp [bytesCmp]
| _ :: _, [] => by simp [bytesCmp]
| x :: xs, y :: ys => by
  simp only [bytesCmp]
  by_cases h1 : x < y
  · have h2 : ¬ y < x := by omega
    simp [h1, h2]
  · by_cases h2 : y < x
    · simp [h1, h2]
    · have hxy : x = y := by omega
      subst hxy
      simp only [if_neg h1, if_neg h2]
      exact bytesCmp_swap xs ys

theorem bytesCmp_nil_ne_lt : ∀ (a : Key), bytesCmp a [] ≠ Ordering.lt
| [] => by simp [bytesCmp]
| _ :: _ => by simp [bytesCmp]

theorem bytesCmp_lt_trans :
    ∀ (a b c : Key), bytesCmp a b = Ordering.lt → bytesCmp b c = Ordering.lt →
      bytesCmp a c = Ordering.lt
| [], b, [] => fun _ h2 => absurd h2 (bytesCmp_nil_ne_lt b)
| [], [], _ :: _ => by simp [bytesCmp]
| [], _ :: _, _ :: _ => by simp [bytesCmp]
| _ :: _, [], _ => by simp [bytesCmp]
| _ :: _, _ :: _, [] => by simp [bytesCmp]
| x :: xs, y :: ys, z :: zs => by
  simp only [bytesCmp]
  by_cases h1 : x < y
  · by_cases h3 : y < z
    · intro _ _
      have : x < z := by omega
      simp [this]
    · by_cases h4 : z < y
      · simp [h1, h3, h4]
      · have hyz : y = z := by omega
        subst hyz
        intro _ _
        simp [h1]
  · by_cases h2 : y < x
    · simp [h1, h2]
    · have hxy : x = y := by omega
      subst hxy
      simp only [if_neg h1, if_neg h2]
      by_cases h3 : x < z
      · simp [h3]
      · by_cases h4 : z < x
        · simp [h3, h4]
        · simp only [if_neg h3, if_neg h4]
          exact bytesCmp_lt_trans xs ys zs

theorem bytesCmp_lt_of_lt_of_le {a b c : Key}
    (h1 : bytesCmp a b = Ordering.lt) (h2 : bytesCmp b c ≠ Ordering.gt) :
    bytesCmp a c = Ordering.lt := by
  cases h : bytesCmp b c with
  | lt => exact bytesCmp_lt_trans a b c h1 h
  | eq => rw [bytesCmp_eq_iff] at h; subst h; exact h1
  | gt => exact absurd h h2

theorem bytesCmp_le_trans {a b c : Key}
    (h1 : bytesCmp a b ≠ Ordering.gt) (h2 : bytesCmp b c ≠ Ordering.gt) :
    bytesCmp a c ≠ Ordering.gt := by
  cases h : bytesCmp a b with
  | lt =>
    have := bytesCmp_lt_of_lt_of_le h h2
    simp [this]
  | eq => rw [bytesCmp_eq_iff] at h; subst h; exact h2
  | gt => exact absurd h h1

theorem bytesCmp_asymm {a b : Key}
    (h1 : bytesCmp a b = Ordering.lt) (h2 : bytesCmp b a = Ordering.lt) : False := by
  have := (bytesCmp_swap a b).mpr h2
  rw [this] at h1
  cases h1

/-- Region metadata (`metapb.Region`): id plus half-open key interval; the
end key empty means unbounded. Keys held here are in the coordinator's
encoded form, as returned by scans. -/
structure Region where
  id : Nat
  startKey : Key
  endKey : Key
deriving DecidableEq, Repr

/-- A scanned region snapshot (`RegionInfo`). The leader peer is carried by
the Go struct but only ever logged by the modelled code, so it is omitted. -/
structure RegionInfo where
  region : Region
deriving DecidableEq, Repr

/-- A target restore range (`rtree.Range`): half-open raw-key interval
(the `Files` payload is never inspected by the splitter). -/
structure Range where
  startKey : Key
  endKey : Key
deriving DecidableEq, Repr

/-- Errors surfaced by the modelled code. `pdBatchScanRegion` stands for
`berrors.ErrPDBatchScanRegion` (inconsistent-scan, retryable),
`restoreInvalidRange` for `berrors.ErrRestoreInvalidRange`; `rpc` is an
opaque error coming back from a client call. Annotation (`errors.Annotatef`,
`errors.Trace`) keeps the underlying error class, so it is modelled by the
constructor with the message payload. -/
inductive BRError where
| pdBatchScanRegion (msg : String)
| restoreInvalidRange (msg : String)
| rpc (msg : String)
deriving DecidableEq, Repr

/-- `berrors.ErrPDBatchScanRegion.Equal(err)`: the error-class test used to
classify retryable inconsistent-scan errors. -/
def BRError.isPDBatchScanRegion : BRError → Bool
| BRError.pdBatchScanRegion _ => true
| _ => false

/-- The message text of an error, as `err.Error()` exposes it. -/
def BRError.errMsg : BRError → String
| BRError.pdBatchScanRegion m => m
| BRError.restoreInvalidRange m => m
| BRError.rpc m => m

/-- Whether `sub` occurs as a contiguous run at the front of `s`. -/
def isPrefixL : List Char → List Char → Bool
| [], _ => true
| _ :: _, [] => false
| a :: as, b :: bs => a == b && isPrefixL as bs

/-- Whether `sub` occurs as a contiguous run anywhere in `s`,
mirroring Go `strings.Contains`. -/
def isInfixL (sub : List Char) : List Char → Bool
| [] => sub.isEmpty
| c :: rest => isPrefixL sub (c :: rest) || isInfixL sub rest

/-- Go `strings.Contains(s, sub)`. -/
def strContains (s sub : String) : Bool :=
  isInfixL sub.toList s.toList

/-- The classifier `strings.Contains(errSplit.Error(), "no valid key")` used
by `Split` to recognize the non-retryable semantic rejection. -/
def containsNoValidKey (e : BRError) : Bool :=
  strContains e.errMsg "no valid key"

/-- The adjacency walk of `checkRegionConsistency`: starting from the first
region, every region's end key must equal the next region's start key. -/
def checkAdjacent : RegionInfo → List RegionInfo → Option BRError
| _, [] => none
| cur, r :: rest =>
  if cur.region.endKey = r.region.startKey then checkAdjacent r rest
  else some (BRError.pdBatchScanRegion "region endKey not equal to next region startKey")

/-- `checkRegionConsistency`: validates that a scanned region list tiles
`[startKey, endKey)` — non-empty, first start key at most `startKey`, last
end key at least `endKey` or empty, and adjacent regions sharing a boundary.
Every violation is an `ErrPDBatchScanRegion` annotation (messages abridged:
the Go code interpolates the offending keys, which is not modelled). -/
def checkRegionConsistency (startKey endKey : Key) (regions : List RegionInfo) :
    Option BRError :=
  match regions with
  | [] => some (BRError.pdBatchScanRegion "scan region return empty result")
  | r0 :: rest =>
    let rl := (r0 :: rest).getLast (List.cons_ne_nil r0 rest)
    if bytesCmp r0.region.startKey startKey = Ordering.gt then
      some (BRError.pdBatchScanRegion "first region startKey greater than startKey")
    else if rl.region.endKey ≠ [] ∧ bytesCmp rl.region.endKey endKey = Ordering.lt then
      some (BRError.pdBatchScanRegion "last region endKey less than endKey")
    else checkAdjacent r0 rest

theorem checkAdjacent_none_iff :
    ∀ (cur : RegionInfo) (rest : List RegionInfo),
    checkAdjacent cur rest = none ↔
      List.Chain' (fun a b => a.region.endKey = b.region.startKey) (cur :: rest)
| _, [] => by simp [checkAdjacent]
| cur, r :: rest => by
  simp only [checkAdjacent]
  by_cases h : cur.region.endKey = r.region.startKey
  · simp [h, checkAdjacent_none_iff r rest, List.chain'_cons]
  · simp [h, List.chain'_cons]

theorem checkAdjacent_some_isPD :
    ∀ (cur : RegionInfo) (rest : List RegionInfo) (err : BRError),
    checkAdjacent cur rest = some err → err.isPDBatchScanRegion = true
| _, [], _ => by simp [checkAdjacent]
| cur, r :: rest, err => by
  simp only [checkAdjacent]
  by_cases h : cur.region.endKey = r.region.startKey
  · simp only [if_pos h]
    exact checkAdjacent_some_isPD r rest err
  · simp only [if_neg h, Option.some.injEq]
    intro he
    subst he
    rfl

/-- C1: `checkRegionConsistency` accepts a region list for `[startKey, endKey)`
exactly when the list is non-empty, the first region starts at or before
`startKey`, the last region ends at or after `endKey` or is open-ended, and
each region's end key equals the next region's start key; every rejection is
the retryable `ErrPDBatchScanRegion` inconsistent-scan error. -/
theorem checkRegionConsistency_tiling (s e : Key) (regions : List RegionInfo) :
    (checkRegionConsistency s e regions = none ↔
      ∃ r0 rl, regions.head? = some r0 ∧ regions.getLast? = some rl ∧
        bytesCmp r0.region.startKey s ≠ Ordering.gt ∧
        (rl.region.endKey = [] ∨ bytesCmp rl.region.endKey e ≠ Ordering.lt) ∧
        List.Chain' (fun a b => a.region.endKey = b.region.startKey) regions) ∧
    (∀ err, checkRegionConsistency s e regions = some err →
      err.isPDBatchScanRegion = true) := by
  cases regions with
  | nil =>
    constructor
    · simp [checkRegionConsistency]
    · intro err h
      simp only [checkRegionConsistency, Option.some.injEq] at h
      subst h
      rfl
  | cons r0 rest =>
    have hne : r0 :: rest ≠ [] := List.cons_ne_nil r0 rest
    have hlast : (r0 :: rest).getLast? = some ((r0 :: rest).getLast hne) :=
      List.getLast?_eq_getLast _ hne
    constructor
    · simp only [checkRegionConsistency]
      by_cases h1 : bytesCmp r0.region.startKey s = Ordering.gt
      · simp only [if_pos h1]
        constructor
        · intro h; cases h
        · rintro ⟨a, b, ha, _, hc, _, _⟩
          simp only [List.head?_cons, Option.some.injEq] at ha
          subst ha
          exact absurd h1 hc
      · simp only [if_neg h1]
        by_cases h2 : ((r0 :: rest).getLast hne).region.endKey ≠ [] ∧
            bytesCmp ((r0 :: rest).getLast hne).region.endKey e = Ordering.lt
        · simp only [if_pos h2]
          constructor
          · intro h; cases h
          · rintro ⟨a, b, _, hb, _, hd, _⟩
            rw [hlast, Option.some.injEq] at hb
            subst hb
            rcases hd with hd | hd
            · exact absurd hd h2.1
            · exact absurd h2.2 hd
        · simp only [if_neg h2]
          rw [checkAdjacent_none_iff]
          constructor
          · intro hch
            refine ⟨r0, (r0 :: rest).getLast hne, rfl, hlast, h1, ?_, hch⟩
            by_cases h3 : ((r0 :: rest).getLast hne).region.endKey = []
            · exact Or.inl h3
            · refine Or.inr ?_
              intro h4
              exact h2 ⟨h3, h4⟩
          · rintro ⟨a, b, ha, _, _, _, hch⟩
            exact hch
    · intro err
      simp only [checkRegionConsistency]
      by_cases h1 : bytesCmp r0.region.startKey s = Ordering.gt
      · simp only [if_pos h1, Option.some.injEq]
        intro h; subst h; rfl
      · simp only [if_neg h1]
        by_cases h2 : ((r0 :: rest).getLast hne).region.endKey ≠ [] ∧
            bytesCmp ((r0 :: rest).getLast hne).region.endKey e = Ordering.lt
        · simp only [if_pos h2, Option.some.injEq]
          intro h; subst h; rfl
        · simp only [if_neg h2]
          exact checkAdjacent_some_isPD r0 rest err

/-- Witness for C1: a concrete tiling list is accepted, and a concrete
violation (the empty list) is rejected with the inconsistent-scan error. -/
theorem checkRegionConsistency_tiling_witness :
    checkRegionConsistency [49] [50] [⟨⟨1, [48], [51]⟩⟩] = none ∧
    (BRError.pdBatchScanRegion "scan region return empty result").isPDBatchScanRegion
      = true :=
  ⟨(checkRegionConsistency_tiling [49] [50] [⟨⟨1, [48], [51]⟩⟩]).1.mpr
      ⟨⟨⟨1, [48], [51]⟩⟩, ⟨⟨1, [48], [51]⟩⟩, rfl, rfl, by decide, Or.inr (by decide),
        by simp⟩,
    (checkRegionConsistency_tiling [49] [50] []).2 _ rfl⟩

/-- The scan-layer retry policy (`scanRegionBackoffer`): a mutable remaining
attempt counter (a Go `int`, hence `Int`). -/
structure scanRegionBackoffer where
  attempt : Int
deriving DecidableEq, Repr

/-- `newScanRegionBackoffer()`: three attempts. -/
def newScanRegionBackoffer : scanRegionBackoffer :=
  { attempt := 3 }

/-- `scanRegionBackoffer.NextBackoff`: on the inconsistent-scan error,
decrement the counter and wait 500ms; on any other error, zero the counter
and return a zero delay (abort immediately). The returned pair is the
updated state and the delay in milliseconds. -/
def NextBackoff (b : scanRegionBackoffer) (e : BRError) : scanRegionBackoffer × Nat :=
  if e.isPDBatchScanRegion then ({ attempt := b.attempt - 1 }, 500)
  else ({ attempt := 0 }, 0)

/-- `scanRegionBackoffer.Attempt`: the remaining attempt count. -/
def Attempt (b : scanRegionBackoffer) : Int :=
  b.attempt

/-- C6: the scan backoffer retries only the designated inconsistent-scan
error, with a fixed 500ms delay and a decremented attempt counter; every
other error yields a zero delay with the remaining attempts zeroed; the
backoffer starts with 3 attempts. -/
theorem scanRegionBackoffer_policy (b : scanRegionBackoffer) (e : BRError) :
    (e.isPDBatchScanRegion = true →
      NextBackoff b e = ({ attempt := b.attempt - 1 }, 500)) ∧
    (e.isPDBatchScanRegion = false →
      NextBackoff b e = ({ attempt := 0 }, 0)) ∧
    Attempt newScanRegionBackoffer = 3 := by
  refine ⟨fun h => ?_, fun h => ?_, rfl⟩
  · simp [NextBackoff, h]
  · simp [NextBackoff, h]

/-- Witness for C6: both classifications evaluated on concrete errors. -/
theorem scanRegionBackoffer_policy_witness :
    NextBackoff { attempt := 3 } (BRError.pdBatchScanRegion "x")
      = ({ attempt := 2 }, 500) ∧
    NextBackoff { attempt := 3 } (BRError.rpc "y") = ({ attempt := 0 }, 0) :=
  ⟨(scanRegionBackoffer_policy { attempt := 3 } (BRError.pdBatchScanRegion "x")).1 rfl,
    (scanRegionBackoffer_policy { attempt := 3 } (BRError.rpc "y")).2.1 rfl⟩

/-- The abstract region-scan capability of `SplitClient` consumed by
`PaginateScanRegion`: `ScanRegions(ctx, startKey, endKey, limit)` as a pure
response function. -/
structure ScanClient where
  scan : Key → Key → Nat → Except BRError (List RegionInfo)

/-- Outcome of the (modelled) paginated scan: a region list, an error, a Go
runtime panic, or `diverge` when the modelling fuel runs out on a loop the
client's answers keep alive forever. -/
inductive PaginateResult where
| ok (regions : List RegionInfo)
| err (e : BRError)
| panic
| diverge
deriving DecidableEq, Repr

/-- The pagination loop body of `PaginateScanRegion`: repeatedly scan from
the cursor, accumulating batches, until a batch is smaller than `limit` or
the cursor leaves `[startKey, endKey)`. Indexing the last element of an
empty batch (possible when `limit = 0`) is a Go panic. -/
def pageLoop (client : ScanClient) (endKey : Key) (limit : Nat) :
    Nat → Key → List RegionInfo → PaginateResult
| 0, _, _ => PaginateResult.diverge
| fuel + 1, cursor, acc =>
  match client.scan cursor endKey limit with
  | Except.error e => PaginateResult.err e
  | Except.ok batch =>
    if batch.length < limit then PaginateResult.ok (acc ++ batch)
    else
      match batch.getLast? with
      | none => PaginateResult.panic
      | some lastR =>
        if lastR.region.endKey = [] ∨
            (endKey ≠ [] ∧ bytesCmp lastR.region.endKey endKey ≠ Ordering.lt) then
          PaginateResult.ok (acc ++ batch)
        else pageLoop client endKey limit fuel lastR.region.endKey (acc ++ batch)

/-- One attempt of the retried scan: paginate from `startKey` with a fresh
accumulator, then validate the result with `checkRegionConsistency`; a
failed check is an error for the retry layer. -/
def scanAttemptBody (client : ScanClient) (startKey endKey : Key) (limit fuel : Nat) :
    PaginateResult :=
  match pageLoop client endKey limit fuel startKey [] with
  | PaginateResult.ok rs =>
    match checkRegionConsistency startKey endKey rs with
    | some err => PaginateResult.err err
    | none => PaginateResult.ok rs
  | other => other

/-- Modelled from the spec: the retry utility `utils.WithRetry` is not part
of this source; per the spec a Backoffer exposes `NextBackoff(error) →
duration` (0 meaning do not retry) and `Attempt() → remaining attempts`,
and the retried function runs while attempts remain, stopping early on
success. The client being a pure function, every attempt returns the same
`body`; the error returned after exhaustion is the last one observed (the
Go code returns a `multierr` accumulation whose content is not claimed).
When no attempt remains at entry the Go function returns a nil error and
the scanned-region variable keeps its zero value, hence `ok []`. -/
def scanWithRetry (body : PaginateResult) : Nat → Int → Option BRError → PaginateResult
| 0, _, _ => PaginateResult.diverge
| fuel + 1, att, lastErr =>
  if 0 < att then
    match body with
    | PaginateResult.ok rs => PaginateResult.ok rs
    | PaginateResult.panic => PaginateResult.panic
    | PaginateResult.diverge => PaginateResult.diverge
    | PaginateResult.err e =>
      scanWithRetry body fuel (NextBackoff { attempt := att } e).1.attempt (some e)
  else
    match lastErr with
    | some e2 => PaginateResult.err e2
    | none => PaginateResult.ok []

/-- `PaginateScanRegion`: reject an invalid range up front (non-empty
`endKey` with `startKey >= endKey`), otherwise run the retried, validated
pagination with a fresh three-attempt scan backoffer. -/
def PaginateScanRegion (client : ScanClient) (startKey endKey : Key)
    (limit fuel : Nat) : PaginateResult :=
  if endKey ≠ [] ∧ bytesCmp startKey endKey ≠ Ordering.lt then
    PaginateResult.err (BRError.restoreInvalidRange "startKey greater than or equal to endKey")
  else
    scanWithRetry (scanAttemptBody client startKey endKey limit fuel) fuel
      newScanRegionBackoffer.attempt none

/-- C5: with a non-empty `endKey` and `startKey >= endKey`,
`PaginateScanRegion` returns the invalid-range error immediately — for
every client and every fuel, so no scan call and no retry can be involved —
while an empty `endKey` always passes the precondition check and proceeds
to the retried scan of the unbounded interval. -/
theorem PaginateScanRegion_invalid_range (client : ScanClient) (s e : Key)
    (limit fuel : Nat) :
    (e ≠ [] → bytesCmp s e ≠ Ordering.lt →
      PaginateScanRegion client s e limit fuel =
        PaginateResult.err
          (BRError.restoreInvalidRange "startKey greater than or equal to endKey")) ∧
    (PaginateScanRegion client s [] limit fuel =
      scanWithRetry (scanAttemptBody client s [] limit fuel) fuel
        newScanRegionBackoffer.attempt none) := by
  constructor
  · intro h1 h2
    simp only [PaginateScanRegion, if_pos (And.intro h1 h2)]
  · simp [PaginateScanRegion]

/-- Witness for C5: a concrete client with `startKey = endKey` is rejected,
and an empty end key is accepted. -/
theorem PaginateScanRegion_invalid_range_witness :
    PaginateScanRegion ⟨fun _ _ _ => Except.ok []⟩ [55] [55] 128 4 =
      PaginateResult.err
        (BRError.restoreInvalidRange "startKey greater than or equal to endKey") ∧
    PaginateScanRegion ⟨fun _ _ _ => Except.ok []⟩ [55] [] 128 4 =
      scanWithRetry (scanAttemptBody ⟨fun _ _ _ => Except.ok []⟩ [55] [] 128 4) 4
        newScanRegionBackoffer.attempt none :=
  ⟨(PaginateScanRegion_invalid_range ⟨fun _ _ _ => Except.ok []⟩ [55] [55] 128 4).1
      (by decide) (by decide),
    (PaginateScanRegion_invalid_range ⟨fun _ _ _ => Except.ok []⟩ [55] [] 128 4).2⟩

/-- Worker for `encodeBytes`, structurally recursive on a fuel that bounds
the number of 8-byte chunks; `encodeBytes` passes the input length, which
always suffices since each step consumes 8 bytes. -/
def encodeBytesAux : Nat → List Nat → List Nat
| 0, data => data ++ List.replicate (8 - data.length) 0 ++ [255 - (8 - data.length)]
| fuel + 1, data =>
  if 8 ≤ data.length then data.take 8 ++ 255 :: encodeBytesAux fuel (data.drop 8)
  else data ++ List.replicate (8 - data.length) 0 ++ [255 - (8 - data.length)]

/-- `codec.EncodeBytes` of the coordinator's codec library (an external
collaborator): memcomparable encoding that emits the data in 8-byte groups,
each full group followed by the marker 255, and a final group (possibly
empty) padded with zeros to 8 bytes and followed by the marker
255 minus the pad count. -/
def encodeBytes (data : List Nat) : List Nat :=
  encodeBytesAux data.length data

/-- Modelled from the spec: `RegionInfo.ContainsInterior` lives outside this
source; per the spec a split key must fall strictly inside the region —
strictly after the start key and strictly before the end key, an empty end
key meaning unbounded. -/
def RegionInfo.ContainsInterior (r : RegionInfo) (key : Key) : Bool :=
  bytesCmp key r.region.startKey = Ordering.gt &&
    (r.region.endKey.isEmpty || bytesCmp key r.region.endKey = Ordering.lt)

/-- The region walk of `NeedSplit` over the already-encoded split key:
a key equal to a region's start key needs no split; a key strictly inside
a region returns that region. -/
def needSplitLoop (ek : Key) : List RegionInfo → Option RegionInfo
| [] => none
| r :: rest =>
  if ek = r.region.startKey then none
  else if r.ContainsInterior ek then some r
  else needSplitLoop ek rest

/-- `NeedSplit`: the empty key (the unbounded upper end) never needs a
split; otherwise encode the raw key and walk the scanned regions. -/
def NeedSplit (splitKey : Key) (regions : List RegionInfo) : Option RegionInfo :=
  if splitKey.isEmpty then none
  else needSplitLoop (encodeBytes splitKey) regions

/-- Append `key` to the entry of region `id` in the split-key grouping,
creating the entry at the end when absent — the assoc-list rendering of the
Go map insertion `splitKeyMap[id] = append(splitKeys, key)`. -/
def addKey (id : Nat) (key : Key) : List (Nat × List Key) → List (Nat × List Key)
| [] => [(id, [key])]
| (i, ks) :: t => if i = id then (i, ks ++ [key]) :: t else (i, ks) :: addKey id key t

/-- Look up one region's split keys in the grouping (empty when absent). -/
def lookupKeys (id : Nat) : List (Nat × List Key) → List Key
| [] => []
| (i, ks) :: t => if i = id then ks else lookupKeys id t

/-- `getSplitKeys`: examine the end key of each target range in range order
and record the keys `NeedSplit` assigns to a region under that region's id.
The Go function returns a `map[uint64][][]byte` whose iteration order is
unspecified; it is rendered as an assoc list in first-insertion order.
(The `rewriteRules` parameter of the Go function is never read by its body
and is omitted.) -/
def getSplitKeyEntries (ranges : List Range) (regions : List RegionInfo) :
    List (Nat × List Key) :=
  (ranges.map Range.endKey).foldl
    (fun m key =>
      match NeedSplit key regions with
      | some r => addKey r.region.id key m
      | none => m) []

/-- The split plan viewed as a map: the ordered split keys recorded for one
region id. -/
def getSplitKeys (ranges : List Range) (regions : List RegionInfo) (id : Nat) :
    List Key :=
  lookupKeys id (getSplitKeyEntries ranges regions)

/-- The id under which `NeedSplit` files a key, if any. -/
def needSplitRegionId (key : Key) (regions : List RegionInfo) : Option Nat :=
  (NeedSplit key regions).map (fun r => r.region.id)

/-- A scanned region list as the data model describes it (contiguous,
non-overlapping shards): adjacent regions share a boundary and every region
except possibly the last has a start key strictly below its non-empty end
key. -/
def wellFormedRegions : List RegionInfo → Bool
| [] => true
| [_] => true
| a :: b :: t =>
  decide (a.region.endKey = b.region.startKey) &&
    decide (bytesCmp a.region.startKey a.region.endKey = Ordering.lt) &&
    wellFormedRegions (b :: t)

theorem wellFormedRegions_tail :
    ∀ (a : RegionInfo) (rest : List RegionInfo),
    wellFormedRegions (a :: rest) = true → wellFormedRegions rest = true
| _, [] => fun _ => rfl
| a, b :: t => by
  simp only [wellFormedRegions, Bool.and_eq_true]
  intro h
  exact h.2

/-- In a well-formed list, the head's end key is at most the start key of
every later region. -/
theorem end_le_start_of_mem :
    ∀ (a : RegionInfo) (rest : List RegionInfo) (r : RegionInfo),
    wellFormedRegions (a :: rest) = true → r ∈ rest →
    bytesCmp a.region.endKey r.region.startKey ≠ Ordering.gt
| _, [], _ => by intro _ h; cases h
| a, b :: t, r => by
  intro hwf hmem
  simp only [wellFormedRegions, Bool.and_eq_true, decide_eq_true_eq] at hwf
  obtain ⟨⟨hab, _⟩, hwf2⟩ := hwf
  cases hmem with
  | head =>
    rw [hab, bytesCmp_refl]
    intro h; cases h
  | tail _ hmem2 =>
    have hbt : bytesCmp b.region.endKey r.region.startKey ≠ Ordering.gt :=
      end_le_start_of_mem b t r hwf2 hmem2
    have hb : bytesCmp b.region.startKey b.region.endKey = Ordering.lt := by
      cases t with
      | nil => cases hmem2
      | cons c t2 =>
        simp only [wellFormedRegions, Bool.and_eq_true, decide_eq_true_eq] at hwf2
        exact hwf2.1.2
    rw [hab]
    have hlt := bytesCmp_lt_of_lt_of_le hb hbt
    intro hgt
    rw [hlt] at hgt
    cases hgt

theorem bytesCmp_lt_of_le_of_lt {a b c : Key}
    (h1 : bytesCmp a b ≠ Ordering.gt) (h2 : bytesCmp b c = Ordering.lt) :
    bytesCmp a c = Ordering.lt := by
  cases h : bytesCmp a b with
  | lt => exact bytesCmp_lt_trans a b c h h2
  | eq => rw [bytesCmp_eq_iff] at h; subst h; exact h2
  | gt => exact absurd h h1

theorem bytesCmp_le_not_lt {x y : Key} (h : bytesCmp x y ≠ Ordering.gt) :
    bytesCmp y x ≠ Ordering.lt := by
  cases hx : bytesCmp x y with
  | lt =>
    have hyx := (bytesCmp_swap y x).mpr hx
    intro hl
    rw [hyx] at hl
    cases hl
  | eq =>
    rw [bytesCmp_eq_iff] at hx
    subst hx
    rw [bytesCmp_refl]
    intro hl; cases hl
  | gt => exact absurd hx h

/-- A key equal to the start key of a member region is turned down by the
region walk of `NeedSplit` in a well-formed topology. -/
theorem needSplitLoop_none_of_start_mem :
    ∀ (rs : List RegionInfo) (r : RegionInfo) (ek : Key),
    wellFormedRegions rs = true → r ∈ rs → ek = r.region.startKey →
    needSplitLoop ek rs = none
| [], _, _ => by intro _ h; cases h
| a :: rest, r, ek => by
  intro hwf hmem hek
  simp only [needSplitLoop]
  by_cases h1 : ek = a.region.startKey
  · simp [h1]
  · simp only [if_neg h1]
    have hmem2 : r ∈ rest := by
      cases hmem with
      | head => exact absurd hek h1
      | tail _ h => exact h
    cases rest with
    | nil => cases hmem2
    | cons b t =>
      have hwf0 := hwf
      simp only [wellFormedRegions, Bool.and_eq_true, decide_eq_true_eq] at hwf0
      obtain ⟨⟨_, halt⟩, _⟩ := hwf0
      have hle : bytesCmp a.region.endKey r.region.startKey ≠ Ordering.gt :=
        end_le_start_of_mem a (b :: t) r hwf hmem2
      have hend_ne : a.region.endKey ≠ [] := by
        intro h0; rw [h0] at halt; exact bytesCmp_nil_ne_lt _ halt
      have hnl : bytesCmp r.region.startKey a.region.endKey ≠ Ordering.lt :=
        bytesCmp_le_not_lt hle
      have hci : ¬ (a.ContainsInterior ek = true) := by
        simp only [RegionInfo.ContainsInterior, Bool.and_eq_true, Bool.or_eq_true,
          decide_eq_true_eq]
        rintro ⟨_, hor⟩
        cases hor with
        | inl hemp => exact hend_ne (by simpa using hemp)
        | inr hlt => rw [hek] at hlt; exact hnl hlt
      simp only [Bool.not_eq_true] at hci
      rw [hci]
      simp only [Bool.false_eq_true, if_false]
      exact needSplitLoop_none_of_start_mem (b :: t) r ek
        (wellFormedRegions_tail a (b :: t) hwf) hmem2 hek

/-- Soundness of the region walk: a returned region is a member and holds
the key strictly inside. -/
theorem needSplitLoop_some :
    ∀ (rs : List RegionInfo) (ek : Key) (r : RegionInfo),
    needSplitLoop ek rs = some r → r ∈ rs ∧ r.ContainsInterior ek = true
| [], ek, r => by simp [needSplitLoop]
| a :: rest, ek, r => by
  simp only [needSplitLoop]
  by_cases h1 : ek = a.region.startKey
  · simp [h1]
  · simp only [if_neg h1]
    by_cases h2 : a.ContainsInterior ek = true
    · rw [h2]
      simp only [if_true, Option.some.injEq]
      intro h; subst h
      exact ⟨List.mem_cons_self a rest, h2⟩
    · simp only [Bool.not_eq_true] at h2
      rw [h2]
      simp only [Bool.false_eq_true, if_false]
      intro h
      have ih := needSplitLoop_some rest ek r h
      exact ⟨List.mem_cons_of_mem a ih.1, ih.2⟩

/-- Completeness of the region walk in a well-formed topology: a member
region holding the key strictly inside is found. -/
theorem needSplitLoop_some_of_contains :
    ∀ (rs : List RegionInfo) (ek : Key) (r : RegionInfo),
    wellFormedRegions rs = true → r ∈ rs → r.ContainsInterior ek = true →
    needSplitLoop ek rs = some r
| [], _, _ => by intro _ h; cases h
| a :: rest, ek, r => by
  intro hwf hmem hci
  simp only [needSplitLoop]
  have hci' := hci
  simp only [RegionInfo.ContainsInterior, Bool.and_eq_true, Bool.or_eq_true,
    decide_eq_true_eq] at hci'
  obtain ⟨hrgt, _⟩ := hci'
  cases hmem with
  | head =>
    have h1 : ek ≠ a.region.startKey := by
      intro h0
      rw [h0, bytesCmp_refl] at hrgt
      cases hrgt
    simp [h1, hci]
  | tail _ hmem2 =>
    cases rest with
    | nil => cases hmem2
    | cons b t =>
      have hwf0 := hwf
      simp only [wellFormedRegions, Bool.and_eq_true, decide_eq_true_eq] at hwf0
      obtain ⟨⟨_, halt⟩, _⟩ := hwf0
      have hle : bytesCmp a.region.endKey r.region.startKey ≠ Ordering.gt :=
        end_le_start_of_mem a (b :: t) r hwf hmem2
      have hend_ne : a.region.endKey ≠ [] := by
        intro h0; rw [h0] at halt; exact bytesCmp_nil_ne_lt _ halt
      have hrs_lt_ek : bytesCmp r.region.startKey ek = Ordering.lt :=
        (bytesCmp_swap ek r.region.startKey).mp hrgt
      have hend_lt_ek : bytesCmp a.region.endKey ek = Ordering.lt :=
        bytesCmp_lt_of_le_of_lt hle hrs_lt_ek
      have h1 : ek ≠ a.region.startKey := by
        have hsub : bytesCmp a.region.startKey ek = Ordering.lt :=
          bytesCmp_lt_trans _ _ _ halt hend_lt_ek
        intro h0
        rw [h0, bytesCmp_refl] at hsub
        cases hsub
      have hci_a : ¬ (a.ContainsInterior ek = true) := by
        simp only [RegionInfo.ContainsInterior, Bool.and_eq_true, Bool.or_eq_true,
          decide_eq_true_eq]
        rintro ⟨_, hor⟩
        cases hor with
        | inl hemp => exact hend_ne (by simpa using hemp)
        | inr hlt =>
          have := (bytesCmp_swap ek a.region.endKey).mpr hend_lt_ek
          rw [this] at hlt
          cases hlt
      simp only [Bool.not_eq_true] at hci_a
      rw [if_neg h1, hci_a]
      simp only [Bool.false_eq_true, if_false]
      exact needSplitLoop_some_of_contains (b :: t) ek r
        (wellFormedRegions_tail a (b :: t) hwf) hmem2 hci

theorem lookupKeys_addKey (id j : Nat) (k : Key) :
    ∀ (m : List (Nat × List Key)),
    lookupKeys id (addKey j k m) =
      if j = id then lookupKeys id m ++ [k] else lookupKeys id m
| [] => by
  simp only [addKey, lookupKeys]
  by_cases h : j = id
  · subst h; simp [lookupKeys]
  · have h2 : ¬ (j = id) := h
    simp [lookupKeys, h2]
| (i, ks) :: t => by
  simp only [addKey]
  by_cases hij : i = j
  · subst hij
    simp only [if_pos rfl, lookupKeys]
    by_cases hid : i = id
    · simp [hid]
    · simp [hid]
  · simp only [if_neg hij, lookupKeys]
    by_cases hid : i = id
    · have hjid : ¬ (j = id) := fun h => hij (h ▸ hid.symm ▸ rfl)
      simp [hid, hjid]
    · simp only [if_neg hid]
      exact lookupKeys_addKey id j k t

theorem lookupKeys_fold (regions : List RegionInfo) (id : Nat) :
    ∀ (keys : List Key) (m : List (Nat × List Key)),
    lookupKeys id
      (keys.foldl
        (fun m key =>
          match NeedSplit key regions with
          | some r => addKey r.region.id key m
          | none => m) m)
    = lookupKeys id m ++
        keys.filter (fun k => decide (needSplitRegionId k regions = some id))
| [], m => by simp
| k :: ks, m => by
  simp only [List.foldl_cons, List.filter_cons]
  cases h : NeedSplit k regions with
  | none =>
    have hp : (decide (needSplitRegionId k regions = some id)) = false := by
      simp [needSplitRegionId, h]
    rw [hp]
    simp only [Bool.false_eq_true, if_false, h]
    exact lookupKeys_fold regions id ks m
  | some r =>
    simp only [h]
    rw [lookupKeys_fold regions id ks (addKey r.region.id k m)]
    rw [lookupKeys_addKey id r.region.id k m]
    have hp : (decide (needSplitRegionId k regions = some id))
        = decide (r.region.id = id) :=
      decide_eq_decide.mpr (by simp [needSplitRegionId, h])
    rw [hp]
    by_cases hid : r.region.id = id
    · simp [hid, List.append_assoc]
    · simp [hid]

/-- The split-plan view of one region id is exactly the range end keys that
`NeedSplit` files under that id, in range order. -/
theorem getSplitKeys_eq_filter (ranges : List Range) (regions : List RegionInfo)
    (id : Nat) :
    getSplitKeys ranges regions id =
      (ranges.map Range.endKey).filter
        (fun k => decide (needSplitRegionId k regions = some id)) := by
  unfold getSplitKeys getSplitKeyEntries
  rw [lookupKeys_fold regions id (ranges.map Range.endKey) []]
  rfl

/-- C7: the split-key planner is idempotent with respect to an already-split
topology: a zero-length key is never assigned a split, a key whose encoding
equals a member region's start key is never assigned a split, and when every
target range's end key is empty or coincides with a region boundary the
whole split plan is empty. -/
theorem planner_idempotent (ranges : List Range) (regions : List RegionInfo)
    (hwf : wellFormedRegions regions = true) :
    (∀ key : Key, key = [] → NeedSplit key regions = none) ∧
    (∀ (key : Key) (r : RegionInfo), r ∈ regions →
      encodeBytes key = r.region.startKey → NeedSplit key regions = none) ∧
    ((∀ rg ∈ ranges, rg.endKey = [] ∨
        ∃ r ∈ regions, encodeBytes rg.endKey = r.region.startKey) →
      ∀ id, getSplitKeys ranges regions id = []) := by
  refine ⟨?_, ?_, ?_⟩
  · intro key hk; subst hk; rfl
  · intro key r hmem henc
    unfold NeedSplit
    by_cases hk : key.isEmpty = true
    · rw [if_pos hk]
    · rw [if_neg hk]
      exact needSplitLoop_none_of_start_mem regions r (encodeBytes key) hwf hmem henc
  · intro hall id
    rw [getSplitKeys_eq_filter]
    rw [List.filter_eq_nil_iff]
    intro k hk
    simp only [List.mem_map] at hk
    obtain ⟨rg, hrg, hke⟩ := hk
    subst hke
    simp only [decide_eq_true_eq]
    rcases hall rg hrg with h0 | ⟨r, hr, henc⟩
    · simp [needSplitRegionId, NeedSplit, h0]
    · have hnone := needSplitLoop_none_of_start_mem regions r (encodeBytes rg.endKey)
        hwf hr henc
      by_cases he : rg.endKey.isEmpty = true
      · simp [needSplitRegionId, NeedSplit, he]
      · simp only [needSplitRegionId, NeedSplit, if_neg he, hnone, Option.map_none']
        intro h; cases h

/-- Witness for C7: a two-region tiling of `[a, z)`; neither the empty key
nor the boundary key `m` is planned, and ranges ending at boundaries give an
empty plan. -/
theorem planner_idempotent_witness :
    NeedSplit [] [⟨⟨1, encodeBytes [97], encodeBytes [109]⟩⟩,
        ⟨⟨2, encodeBytes [109], encodeBytes [122]⟩⟩] = none ∧
    NeedSplit [109] [⟨⟨1, encodeBytes [97], encodeBytes [109]⟩⟩,
        ⟨⟨2, encodeBytes [109], encodeBytes [122]⟩⟩] = none ∧
    getSplitKeys [⟨[97], [109]⟩, ⟨[109], []⟩]
      [⟨⟨1, encodeBytes [97], encodeBytes [109]⟩⟩,
        ⟨⟨2, encodeBytes [109], encodeBytes [122]⟩⟩] 1 = [] := by
  have h := planner_idempotent [⟨[97], [109]⟩, ⟨[109], []⟩]
    [⟨⟨1, encodeBytes [97], encodeBytes [109]⟩⟩,
      ⟨⟨2, encodeBytes [109], encodeBytes [122]⟩⟩] (by decide)
  exact ⟨h.1 [] rfl,
    h.2.1 [109] ⟨⟨2, encodeBytes [109], encodeBytes [122]⟩⟩ (by decide) rfl,
    h.2.2 (by decide) 1⟩

/-- C8: one region id's split plan is exactly the sequence of range end keys
that `NeedSplit` files under that id, in range-iteration order with
duplicates preserved; a filed key is non-empty and lies strictly inside the
member region it is filed under; and in a well-formed topology every
non-empty key lying strictly inside a member region is filed under it. -/
theorem getSplitKeys_groups (ranges : List Range) (regions : List RegionInfo) :
    (∀ id, getSplitKeys ranges regions id =
      (ranges.map Range.endKey).filter
        (fun k => decide (needSplitRegionId k regions = some id))) ∧
    (∀ (k : Key) (r : RegionInfo), NeedSplit k regions = some r →
      k ≠ [] ∧ r ∈ regions ∧ r.ContainsInterior (encodeBytes k) = true) ∧
    (wellFormedRegions regions = true →
      ∀ (k : Key) (r : RegionInfo), k ≠ [] → r ∈ regions →
        r.ContainsInterior (encodeBytes k) = true →
        NeedSplit k regions = some r) := by
  refine ⟨getSplitKeys_eq_filter ranges regions, ?_, ?_⟩
  · intro k r h
    unfold NeedSplit at h
    by_cases hk : k.isEmpty = true
    · rw [if_pos hk] at h; cases h
    · rw [if_neg hk] at h
      have h2 := needSplitLoop_some regions (encodeBytes k) r h
      refine ⟨?_, h2.1, h2.2⟩
      intro h0; subst h0; exact hk rfl
  · intro hwf k r hk hmem hci
    unfold NeedSplit
    have hk2 : ¬ (k.isEmpty = true) := by
      cases k with
      | nil => exact absurd rfl hk
      | cons a t => simp [List.isEmpty]
    rw [if_neg hk2]
    exact needSplitLoop_some_of_contains regions (encodeBytes k) r hwf hmem hci

/-- Witness for C8: the key `d` inside region 1 of the `[a, z)` tiling is
filed under id 1, with the filter view, soundness and completeness all
evaluated there. -/
theorem getSplitKeys_groups_witness :
    getSplitKeys [⟨[97], [100]⟩]
        [⟨⟨1, encodeBytes [97], encodeBytes [109]⟩⟩,
          ⟨⟨2, encodeBytes [109], encodeBytes [122]⟩⟩] 1 =
      (([⟨[97], [100]⟩] : List Range).map Range.endKey).filter
        (fun k => decide (needSplitRegionId k
          [⟨⟨1, encodeBytes [97], encodeBytes [109]⟩⟩,
            ⟨⟨2, encodeBytes [109], encodeBytes [122]⟩⟩] = some 1)) ∧
    ([100] ≠ ([] : Key) ∧
      (⟨⟨1, encodeBytes [97], encodeBytes [109]⟩⟩ : RegionInfo) ∈
        [⟨⟨1, encodeBytes [97], encodeBytes [109]⟩⟩,
          ⟨⟨2, encodeBytes [109], encodeBytes [122]⟩⟩] ∧
      RegionInfo.ContainsInterior ⟨⟨1, encodeBytes [97], encodeBytes [109]⟩⟩
        (encodeBytes [100]) = true) ∧
    NeedSplit [100]
        [⟨⟨1, encodeBytes [97], encodeBytes [109]⟩⟩,
          ⟨⟨2, encodeBytes [109], encodeBytes [122]⟩⟩] =
      some ⟨⟨1, encodeBytes [97], encodeBytes [109]⟩⟩ := by
  have h := getSplitKeys_groups [⟨[97], [100]⟩]
    [⟨⟨1, encodeBytes [97], encodeBytes [109]⟩⟩,
      ⟨⟨2, encodeBytes [109], encodeBytes [122]⟩⟩]
  exact ⟨h.1 1,
    h.2.1 [100] ⟨⟨1, encodeBytes [97], encodeBytes [109]⟩⟩ (by decide),
    h.2.2 (by decide) [100] ⟨⟨1, encodeBytes [97], encodeBytes [109]⟩⟩
      (by decide) (by decide) (by decide)⟩

/-- Outcome of one `splitAndScatterRegions` call. -/
inductive SplitCallResult where
| ok (newRegions : List RegionInfo)
| err (e : BRError)
| panic
deriving DecidableEq, Repr

/-- `splitAndScatterRegions`: with no keys requested, the region itself is
returned for accumulation without any RPC; otherwise the batch-split RPC
response (a parameter, the client being external) is inspected: an error
propagates; on success the last newly created sub-region is dropped from
the returned list exactly when its start key equals the last requested
split key, and the rest is scattered (`ScatterRegions` is fire-and-forget,
its outcome never reaches this caller). Indexing the last element of an
empty response list is a Go panic; the keys list cannot be empty past the
guard. -/
def splitAndScatterRegions (rpc : Except BRError (List RegionInfo))
    (regionInfo : RegionInfo) (keys : List Key) : SplitCallResult :=
  if keys.isEmpty then SplitCallResult.ok [regionInfo]
  else
    match rpc with
    | Except.error e => SplitCallResult.err e
    | Except.ok newRegions =>
      match newRegions.getLast?, keys.getLast? with
      | some lastR, some lastK =>
        SplitCallResult.ok
          (if lastR.region.startKey = lastK then newRegions.dropLast else newRegions)
      | _, _ => SplitCallResult.panic

/-- C2: after a successful split at a non-empty key list, the region list
accumulated for scattering excludes the last newly created sub-region
exactly when its start key equals the last requested split key, and keeps
the full list otherwise. -/
theorem splitAndScatter_scatter_set (regionInfo lastR : RegionInfo)
    (keys : List Key) (newRegions : List RegionInfo) (lastK : Key)
    (hk : keys.getLast? = some lastK) (hn : newRegions.getLast? = some lastR) :
    splitAndScatterRegions (Except.ok newRegions) regionInfo keys =
      SplitCallResult.ok
        (if lastR.region.startKey = lastK then newRegions.dropLast
         else newRegions) ∧
    (lastR.region.startKey = lastK →
      splitAndScatterRegions (Except.ok newRegions) regionInfo keys =
        SplitCallResult.ok newRegions.dropLast ∧
      newRegions.dropLast.length + 1 = newRegions.length) ∧
    (lastR.region.startKey ≠ lastK →
      splitAndScatterRegions (Except.ok newRegions) regionInfo keys =
        SplitCallResult.ok newRegions) := by
  have hkne : ¬ (keys.isEmpty = true) := by
    cases keys with
    | nil => cases hk
    | cons a t => simp [List.isEmpty]
  have hnne : newRegions ≠ [] := by
    intro h0; subst h0; cases hn
  have hmain : splitAndScatterRegions (Except.ok newRegions) regionInfo keys =
      SplitCallResult.ok
        (if lastR.region.startKey = lastK then newRegions.dropLast
         else newRegions) := by
    unfold splitAndScatterRegions
    rw [if_neg hkne]
    simp only [hn, hk]
  refine ⟨hmain, fun heq => ⟨?_, ?_⟩, fun hne => ?_⟩
  · rw [hmain, if_pos heq]
  · have h1 : 1 ≤ newRegions.length := by
      cases newRegions with
      | nil => exact absurd rfl hnne
      | cons a t => simp
    rw [List.length_dropLast]
    omega
  · rw [hmain, if_neg hne]

/-- Witness for C2: splitting `[a, z)` at `[m]`; when the last sub-region
starts at `m` it is excluded, when it starts elsewhere it is kept. -/
theorem splitAndScatter_scatter_set_witness :
    splitAndScatterRegions
        (Except.ok [⟨⟨10, [97], [109]⟩⟩, ⟨⟨11, [109], [122]⟩⟩])
        ⟨⟨10, [97], [122]⟩⟩ [[109]] =
      SplitCallResult.ok [⟨⟨10, [97], [109]⟩⟩] ∧
    splitAndScatterRegions
        (Except.ok [⟨⟨10, [97], [110]⟩⟩, ⟨⟨11, [110], [122]⟩⟩])
        ⟨⟨10, [97], [122]⟩⟩ [[109]] =
      SplitCallResult.ok [⟨⟨10, [97], [110]⟩⟩, ⟨⟨11, [110], [122]⟩⟩] := by
  have h1 := splitAndScatter_scatter_set ⟨⟨10, [97], [122]⟩⟩ ⟨⟨11, [109], [122]⟩⟩
    [[109]] [⟨⟨10, [97], [109]⟩⟩, ⟨⟨11, [109], [122]⟩⟩] [109] rfl (by decide)
  have h2 := splitAndScatter_scatter_set ⟨⟨10, [97], [122]⟩⟩ ⟨⟨11, [110], [122]⟩⟩
    [[109]] [⟨⟨10, [97], [110]⟩⟩, ⟨⟨11, [110], [122]⟩⟩] [109] rfl (by decide)
  exact ⟨(h1.2.1 rfl).1, h2.2.2 (by decide)⟩

/-- The collaborator responses `Split` consumes, indexed by the outer
attempt: the outcome of the `PaginateScanRegion` call, the batch-split RPC
response per region id and key list, and the per-region scatter outcomes
(carried for completeness: the code never lets a scatter outcome influence
`Split`'s result). -/
structure SplitEnv where
  scan : Nat → PaginateResult
  batchSplit : Nat → Nat → List Key → Except BRError (List RegionInfo)
  scatterFail : Nat → Nat → Option BRError

/-- Outcome of one pass of `Split`'s inner per-region loop. -/
inductive InnerOutcome where
| done (scatter : List RegionInfo) (errSplit : Option BRError)
| abort (e : BRError)
| retry (scatter : List RegionInfo) (e : BRError)
| panic
deriving DecidableEq, Repr

/-- The Go `regionMap` built from the freshly scanned regions
(`regionMap[id] = region`, later entries winning), as a lookup. -/
def regionMapLookup (regions : List RegionInfo) (id : Nat) : Option RegionInfo :=
  regions.reverse.find? (fun r => r.region.id == id)

/-- The inner loop of `Split` over the split-plan entries: each entry's
region is split via `splitAndScatterRegions`; a failure whose message
contains "no valid key" aborts the whole split, any other failure restarts
the outer loop keeping the scatter set accumulated so far, and a success
appends the returned regions and clears the pending `errSplit`. A missing
`regionMap` entry would be a nil-pointer dereference, a Go panic. Go map
iteration order is unspecified; the plan entries are walked in
first-insertion order. -/
def processEntries (batch : Nat → List Key → Except BRError (List RegionInfo))
    (regionMap : Nat → Option RegionInfo) :
    List (Nat × List Key) → List RegionInfo → Option BRError → InnerOutcome
| [], scatter, errSplit => InnerOutcome.done scatter errSplit
| (rid, keys) :: rest, scatter, _ =>
  match regionMap rid with
  | none => InnerOutcome.panic
  | some region =>
    match splitAndScatterRegions (batch rid keys) region keys with
    | SplitCallResult.panic => InnerOutcome.panic
    | SplitCallResult.err e =>
      if containsNoValidKey e then InnerOutcome.abort e
      else InnerOutcome.retry scatter e
    | SplitCallResult.ok newRegions =>
      processEntries batch regionMap rest (scatter ++ newRegions) none

/-- Outcome of `Split`: `ok` is a nil error return carrying the scatter set
the final wait phase iterates over. -/
inductive SplitOutcome where
| ok (scatter : List RegionInfo)
| err (e : BRError)
| panic
| diverge
deriving DecidableEq, Repr

/-- The outer `SplitRegions:` retry loop of `Split`. `fuel` is the number
of remaining attempts (starting at `SplitRetryTimes`), `i` the attempt
index feeding the environment, `scatter` and `errSplit` the mutable
`scatterRegions` and `errSplit` variables. A scan error of the
inconsistent-scan class restarts the loop after a sleep; any other scan
error returns immediately. When the loop exits — by `break` after a pass or
by exhausting the attempts — a pending non-nil `errSplit` is returned,
otherwise `Split` proceeds to the best-effort scatter wait (which cannot
fail) and returns nil with the accumulated scatter set. -/
def splitLoop (env : SplitEnv) (ranges : List Range) :
    Nat → Nat → List RegionInfo → Option BRError → SplitOutcome
| _, 0, scatter, errSplit =>
  match errSplit with
  | some e => SplitOutcome.err e
  | none => SplitOutcome.ok scatter
| i, fuel + 1, scatter, errSplit =>
  match env.scan i with
  | PaginateResult.err e =>
    if e.isPDBatchScanRegion then splitLoop env ranges (i + 1) fuel scatter errSplit
    else SplitOutcome.err e
  | PaginateResult.panic => SplitOutcome.panic
  | PaginateResult.diverge => SplitOutcome.diverge
  | PaginateResult.ok regions =>
    match processEntries (env.batchSplit i) (regionMapLookup regions)
        (getSplitKeyEntries ranges regions) scatter errSplit with
    | InnerOutcome.done scatter2 errFinal =>
      match errFinal with
      | some e => SplitOutcome.err e
      | none => SplitOutcome.ok scatter2
    | InnerOutcome.abort e => SplitOutcome.err e
    | InnerOutcome.retry scatter2 e =>
      splitLoop env ranges (i + 1) fuel scatter2 (some e)
    | InnerOutcome.panic => SplitOutcome.panic

/-- `SplitRetryTimes`: the outer retry ceiling. -/
def SplitRetryTimes : Nat := 32

/-- `Split`: with no target ranges, skip entirely and report success;
otherwise run the outer retry loop over the (already sorted) ranges.
(`SortRanges` and the min/max key computation are delegated to an external
collaborator; the scan environment absorbs the `[minKey, maxKey]`
arguments.) -/
def Split (env : SplitEnv) (ranges : List Range) : SplitOutcome :=
  if ranges.isEmpty then SplitOutcome.ok []
  else splitLoop env ranges 0 SplitRetryTimes [] none

/-- C10: `Split` on an empty range list is a no-op success: for every
environment — hence without consulting any scan, split or scatter
response — it returns nil at once with nothing to scatter. -/
theorem Split_empty_ranges (env : SplitEnv) : Split env [] = SplitOutcome.ok [] :=
  rfl

/-- C3, evaluated at the failing input: an environment whose every scan
attempt fails with the retryable inconsistent-scan error exhausts all 32
outer attempts, after which `Split` returns nil (success with an empty
scatter set) instead of an error, because only the batch-split error
variable `errSplit` — never the scan error — is consulted after the loop. -/
theorem Split_scan_exhausted_returns_ok :
    Split
      ⟨fun _ => PaginateResult.err (BRError.pdBatchScanRegion "scan failed"),
        fun _ _ _ => Except.ok [], fun _ _ => none⟩
      [⟨[97], [98]⟩] = SplitOutcome.ok [] := rfl

/-- C4: a batch-split failure whose message contains "no valid key" makes
the inner loop abort, which `Split` surfaces as that very error regardless
of the remaining attempts; any other batch-split failure makes the inner
loop request a restart, and the outer loop then re-runs from a fresh scan
with one attempt fewer. -/
theorem split_noValidKey_aborts (env : SplitEnv) (ranges : List Range)
    (i fuel : Nat) (scatter scatter2 : List RegionInfo) (errSplit : Option BRError)
    (regions : List RegionInfo) (e : BRError) (rid : Nat) (keys : List Key)
    (rest : List (Nat × List Key)) (region : RegionInfo) :
    (regionMapLookup regions rid = some region →
      splitAndScatterRegions (env.batchSplit i rid keys) region keys =
        SplitCallResult.err e →
      processEntries (env.batchSplit i) (regionMapLookup regions)
          ((rid, keys) :: rest) scatter errSplit =
        (if containsNoValidKey e then InnerOutcome.abort e
         else InnerOutcome.retry scatter e)) ∧
    (env.scan i = PaginateResult.ok regions →
      processEntries (env.batchSplit i) (regionMapLookup regions)
          (getSplitKeyEntries ranges regions) scatter errSplit =
        InnerOutcome.abort e →
      splitLoop env ranges i (fuel + 1) scatter errSplit = SplitOutcome.err e) ∧
    (env.scan i = PaginateResult.ok regions →
      processEntries (env.batchSplit i) (regionMapLookup regions)
          (getSplitKeyEntries ranges regions) scatter errSplit =
        InnerOutcome.retry scatter2 e →
      splitLoop env ranges i (fuel + 1) scatter errSplit =
        splitLoop env ranges (i + 1) fuel scatter2 (some e)) := by
  refine ⟨fun h1 h2 => ?_, fun h1 h2 => ?_, fun h1 h2 => ?_⟩
  · simp only [processEntries, h1, h2]
  · simp only [splitLoop, h1, h2]
  · simp only [splitLoop, h1, h2]

/-- Witness for C4: over a single region `[a, z)` with split key `m`, a
batch-split failure saying "no valid key" surfaces as `Split`'s error, while
an "epoch not match" failure restarts the outer loop with one attempt
fewer. -/
theorem split_noValidKey_aborts_witness :
    processEntries
        ((⟨fun _ => PaginateResult.ok [⟨⟨1, encodeBytes [97], encodeBytes [122]⟩⟩],
            fun _ _ _ => Except.error (BRError.rpc "no valid key"),
            fun _ _ => none⟩ : SplitEnv).batchSplit 0)
        (regionMapLookup [⟨⟨1, encodeBytes [97], encodeBytes [122]⟩⟩])
        [(1, [[109]])] [] none =
      (if containsNoValidKey (BRError.rpc "no valid key")
       then InnerOutcome.abort (BRError.rpc "no valid key")
       else InnerOutcome.retry [] (BRError.rpc "no valid key")) ∧
    splitLoop
        ⟨fun _ => PaginateResult.ok [⟨⟨1, encodeBytes [97], encodeBytes [122]⟩⟩],
          fun _ _ _ => Except.error (BRError.rpc "no valid key"),
          fun _ _ => none⟩
        [⟨[97], [109]⟩] 0 32 [] none =
      SplitOutcome.err (BRError.rpc "no valid key") ∧
    splitLoop
        ⟨fun _ => PaginateResult.ok [⟨⟨1, encodeBytes [97], encodeBytes [122]⟩⟩],
          fun _ _ _ => Except.error (BRError.rpc "epoch not match"),
          fun _ _ => none⟩
        [⟨[97], [109]⟩] 0 32 [] none =
      splitLoop
        ⟨fun _ => PaginateResult.ok [⟨⟨1, encodeBytes [97], encodeBytes [122]⟩⟩],
          fun _ _ _ => Except.error (BRError.rpc "epoch not match"),
          fun _ _ => none⟩
        [⟨[97], [109]⟩] 1 31 [] (some (BRError.rpc "epoch not match")) := by
  have hA := split_noValidKey_aborts
    ⟨fun _ => PaginateResult.ok [⟨⟨1, encodeBytes [97], encodeBytes [122]⟩⟩],
      fun _ _ _ => Except.error (BRError.rpc "no valid key"), fun _ _ => none⟩
    [⟨[97], [109]⟩] 0 31 [] [] none
    [⟨⟨1, encodeBytes [97], encodeBytes [122]⟩⟩] (BRError.rpc "no valid key")
    1 [[109]] [] ⟨⟨1, encodeBytes [97], encodeBytes [122]⟩⟩
  have hB := split_noValidKey_aborts
    ⟨fun _ => PaginateResult.ok [⟨⟨1, encodeBytes [97], encodeBytes [122]⟩⟩],
      fun _ _ _ => Except.error (BRError.rpc "epoch not match"), fun _ _ => none⟩
    [⟨[97], [109]⟩] 0 31 [] [] none
    [⟨⟨1, encodeBytes [97], encodeBytes [122]⟩⟩] (BRError.rpc "epoch not match")
    1 [[109]] [] ⟨⟨1, encodeBytes [97], encodeBytes [122]⟩⟩
  exact ⟨hA.1 (by decide) (by decide), hA.2.1 rfl (by decide),
    hB.2.2 rfl (by decide)⟩

/-- The collaborator responses of the scatter coordinator: the per-pass,
per-region outcome of `ScatterRegion`, and the external classifier
`pdErrorCanRetry`, abstracted. -/
structure ScatterEnv where
  scatterFail : Nat → Nat → Option BRError
  canRetry : BRError → Bool

/-- One pass of `ScatterRegionsWithBackoffer`'s retried closure over the
pending set (Go map iteration determinized to list order; `waitForSplit`
runs first for each region and swallows its own failures): a successful
scatter removes the region from the pending set, a failure classified
non-retryable removes it with a warning, and a retryable failure keeps it.
The Bool reports whether any error entered the pass's `multierr`
accumulation, i.e. whether the retried closure returned an error. -/
def scatterPass (env : ScatterEnv) (pass : Nat) :
    List RegionInfo → List RegionInfo × Bool
| [] => ([], false)
| r :: rest =>
  let tail := scatterPass env pass rest
  match env.scatterFail pass r.region.id with
  | none => tail
  | some e => (if env.canRetry e then r :: tail.1 else tail.1, true)

/-- Modelled from the spec: `utils.WithRetry` with the fixed-attempt
exponential backoffer built by `ScatterRegions` (7 attempts, 100ms base) is
outside this source; per the spec the retried pass re-runs while it reports
an error and attempts remain, and a clean pass ends the retry. The Go
function returns nothing to its caller; the model returns the final pending
set, which the code merely logs as the regions left unscattered. -/
def scatterLoop (env : ScatterEnv) : Nat → Nat → List RegionInfo → List RegionInfo
| _, 0, pending => pending
| pass, fuel + 1, pending =>
  let pr := scatterPass env pass pending
  if pr.2 then scatterLoop env (pass + 1) fuel pr.1
  else pr.1

/-- One Go map insertion `newRegionSet[id] = r` (later entries win),
determinized to first-insertion order. -/
def setInsert (m : List RegionInfo) (r : RegionInfo) : List RegionInfo :=
  if m.any (fun x => x.region.id == r.region.id) then
    m.map (fun x => if x.region.id == r.region.id then r else x)
  else m ++ [r]

/-- The `newRegionSet` pending map `ScatterRegionsWithBackoffer` builds from
its argument list. -/
def buildRegionSet (rs : List RegionInfo) : List RegionInfo :=
  rs.foldl setInsert []

/-- `ScatterRegionsWithBackoffer`, with the backoffer abstracted to its
attempt budget. -/
def ScatterRegionsWithBackoffer (env : ScatterEnv) (newRegions : List RegionInfo)
    (attempts : Nat) : List RegionInfo :=
  scatterLoop env 0 attempts (buildRegionSet newRegions)

/-- `ScatterRegions`: scatter with the seven-attempt exponential
backoffer. -/
def ScatterRegions (env : ScatterEnv) (newRegions : List RegionInfo) :
    List RegionInfo :=
  ScatterRegionsWithBackoffer env newRegions 7

/-- Each pass keeps pending exactly the retryably-failed regions and
reports whether any region at all failed. -/
theorem scatterPass_filter (env : ScatterEnv) (pass : Nat) :
    ∀ pending : List RegionInfo,
    scatterPass env pass pending =
      (pending.filter
        (fun r => match env.scatterFail pass r.region.id with
          | some e => env.canRetry e
          | none => false),
       pending.any (fun r => (env.scatterFail pass r.region.id).isSome))
| [] => rfl
| r :: rest => by
  simp only [scatterPass, scatterPass_filter env pass rest, List.filter_cons,
    List.any_cons]
  cases h : env.scatterFail pass r.region.id with
  | none => simp [h]
  | some e =>
    by_cases hc : env.canRetry e = true
    · simp [h, hc]
    · simp only [Bool.not_eq_true] at hc
      simp [h, hc]

/-- `splitLoop` never reads the scatter outcomes: two environments agreeing
on scan and batch-split responses produce the same result. -/
theorem splitLoop_scatter_indep (e1 e2 : SplitEnv) (hs : e1.scan = e2.scan)
    (hb : e1.batchSplit = e2.batchSplit) (ranges : List Range) :
    ∀ (fuel i : Nat) (scatter : List RegionInfo) (errSplit : Option BRError),
    splitLoop e1 ranges i fuel scatter errSplit =
      splitLoop e2 ranges i fuel scatter errSplit
| 0, _, _, _ => rfl
| fuel + 1, i, scatter, errSplit => by
  simp only [splitLoop, ← hs, ← hb]
  cases h : e1.scan i with
  | err e =>
    by_cases hp : e.isPDBatchScanRegion = true
    · simp only [hp, if_true]
      exact splitLoop_scatter_indep e1 e2 hs hb ranges fuel (i + 1) scatter errSplit
    · simp only [Bool.not_eq_true] at hp
      simp [hp]
  | ok regions =>
    cases hpe : processEntries (e1.batchSplit i) (regionMapLookup regions)
        (getSplitKeyEntries ranges regions) scatter errSplit with
    | done s2 ef => simp only [hpe]
    | abort e => simp only [hpe]
    | retry s2 e =>
      simp only [hpe]
      exact splitLoop_scatter_indep e1 e2 hs hb ranges fuel (i + 1) s2 (some e)
    | panic => simp only [hpe]
  | panic => rfl
  | diverge => rfl

/-- C9: scatter failures are contained per region: in each pass a region
stays pending exactly when its scatter failed retryably — successes and
non-retryably failed regions leave the pending set, the latter with a
warning — the loop re-issues scatter only for the still-pending set,
`ScatterRegions` allows at most seven passes, the coordinator returns no
error by construction, and the scatter outcomes never flow back into
`Split`'s result. -/
theorem scatter_failures_contained (env : ScatterEnv)
    (newRegions : List RegionInfo) (pass fuel : Nat)
    (pending : List RegionInfo) :
    ScatterRegions env newRegions =
      scatterLoop env 0 7 (buildRegionSet newRegions) ∧
    scatterPass env pass pending =
      (pending.filter
        (fun r => match env.scatterFail pass r.region.id with
          | some e => env.canRetry e
          | none => false),
       pending.any (fun r => (env.scatterFail pass r.region.id).isSome)) ∧
    scatterLoop env pass (fuel + 1) pending =
      (if (scatterPass env pass pending).2 then
        scatterLoop env (pass + 1) fuel (scatterPass env pass pending).1
       else (scatterPass env pass pending).1) ∧
    scatterLoop env pass 0 pending = pending ∧
    (∀ (scanF : Nat → PaginateResult)
       (batchF : Nat → Nat → List Key → Except BRError (List RegionInfo))
       (f1 f2 : Nat → Nat → Option BRError) (ranges : List Range),
      Split ⟨scanF, batchF, f1⟩ ranges = Split ⟨scanF, batchF, f2⟩ ranges) := by
  refine ⟨rfl, scatterPass_filter env pass pending, rfl, rfl, ?_⟩
  intro scanF batchF f1 f2 ranges
  unfold Split
  by_cases hr : ranges.isEmpty = true
  · rw [if_pos hr, if_pos hr]
  · rw [if_neg hr, if_neg hr]
    exact splitLoop_scatter_indep ⟨scanF, batchF, f1⟩ ⟨scanF, batchF, f2⟩ rfl rfl
      ranges SplitRetryTimes 0 [] none

end BR
